import Mathlib

/-!
Verification of the query/fetch machinery of a minimalist archetype ECS
(`src/query.rs` of the repository).  The Rust source is shallowly embedded:

* `Access` mirrors `query.rs`'s `Access` enum (`Iterate < Read < Write`,
  with the derived `Ord`, and the derived `Option` order where
  `None < Some _`).
* `Archetype` models the columnar archetype store.  `archetype.rs` is not
  part of the provided sources, so the few operations the query code calls
  (`has`, `get`, `len`, `entities`) are modelled from the specification.
* `Q` is the inductive syntax of query types built from the primitives of
  `query.rs`: `Entity`, `&T`, `&mut T`, `Option<Q>`, `With<T, Q>`,
  `Without<T, Q>` and tuples.  Component types are identified by their
  `type_id`, modelled as a natural number.
* For each query form the source implements a `Fetch` with operations
  `access`, `borrow`, `get`, `release`, `next`; these become `Q.access`,
  the borrow traces of `QueryBorrow`, `Q.getF` and `FetchS.nextF`.
* `qnext`/`qadvance` embed `impl Iterator for QueryIter`, `bnextGo` embeds
  `impl Iterator for BatchedIter`, `chunkItems` embeds `ChunkIter`.
  Pointers into a column become (archetype, type, row) triples; the machine
  `u32` multiplication `batch_size * self.batch` is taken modulo `2 ^ 32`.
-/

/-- Mirrors `enum Access { Iterate, Read, Write }` from `query.rs`. -/
inductive Access where
  | iterate : Access
  | read : Access
  | write : Access
deriving DecidableEq, Repr

/-- Numeric rank of an access, implementing the derived `Ord`
(`Iterate < Read < Write`). -/
def Access.rank : Access → Nat
  | .iterate => 0
  | .read => 1
  | .write => 2

/-- Rust `Ord::max` on `Access` (returns the greater value, the second
argument on equality). -/
def Access.maxA (x y : Access) : Access :=
  if x.rank ≤ y.rank then y else x

/-- The derived order on `Option<Access>` restricted to `≥`:
`None` is below every `Some`. Used for the source condition
`Q::Fetch::access(x) >= Some(Access::Read)`. -/
def optAccessGE : Option Access → Option Access → Bool
  | none, none => true
  | none, some _ => false
  | some _, none => true
  | some x, some y => y.rank ≤ x.rank

/-- Modelled from the spec: `archetype.rs` is not under `src/`.  Per §3/§4.2
an archetype stores a sorted list of component types (`types`), a row count
(`len`, the source's `archetype.len(): u32`) and the parallel array of
entity ids (`entities`).  Column payloads are irrelevant to the query
claims, so they are not modelled. -/
structure Archetype where
  types : List Nat
  len : Nat
  entities : List Nat
deriving DecidableEq, Repr

/-- Modelled from the spec: `has(type_id) → bool` membership test of §4.2. -/
def Archetype.has (a : Archetype) (t : Nat) : Bool :=
  a.types.contains t

/-- Modelled from the spec: `get(type_id) → column_base_ptr?` of §4.2
"returns the base of that column or nothing".  Only success or failure of
the lookup is observable to the query layer. -/
def Archetype.getCol (a : Archetype) (t : Nat) : Option Unit :=
  if a.has t then some () else none

/-- Query types of `query.rs`: `Entity`, `&'a T`, `&'a mut T`, `Option<T>`,
`Without<T, Q>`, `With<T, Q>` and the tuple implementations generated by
`tuple_impl!`. -/
inductive Q where
  | ent : Q
  | read (t : Nat) : Q
  | write (t : Nat) : Q
  | opt (q : Q) : Q
  | withQ (t : Nat) (q : Q) : Q
  | withoutQ (t : Nat) (q : Q) : Q
  | tup (qs : List Q) : Q
deriving Repr

mutual

/-- Embeds the `fn access(archetype: &Archetype) -> Option<Access>` of each
`Fetch` impl in `query.rs` (`EntityFetch`, `FetchRead`, `FetchWrite`,
`TryFetch`, `FetchWith`, `FetchWithout` and the tuple macro). -/
def Q.access : Q → Archetype → Option Access
  | .ent, _ => some .iterate
  | .read t, a => if a.has t then some .read else none
  | .write t, a => if a.has t then some .write else none
  | .opt q, a => some ((Q.access q a).getD .iterate)
  | .withQ t q, a => if a.has t then Q.access q a else none
  | .withoutQ t q, a => if a.has t then none else Q.access q a
  | .tup qs, a => Q.accessFold .iterate qs a

/-- The tuple `access` loop: `let mut access = Access::Iterate;
access = access.max($name::access(archetype)?); ... Some(access)`. -/
def Q.accessFold : Access → List Q → Archetype → Option Access
  | acc, [], _ => some acc
  | acc, q :: qs, a =>
    match Q.access q a with
    | none => none
    | some x => Q.accessFold (acc.maxA x) qs a

end

/-- Fetch state (the cursor produced by `Fetch::get`).  A live pointer into
a column is modelled as the owning archetype, the component type and the
row the pointer currently addresses; the `EntityFetch` pointer keeps the
captured `entities` array and the row. -/
inductive FetchS where
  | ent (arr : List Nat) (ptr : Nat) : FetchS
  | read (a : Archetype) (t : Nat) (ptr : Nat) : FetchS
  | write (a : Archetype) (t : Nat) (ptr : Nat) : FetchS
  | opt (s : Option FetchS) : FetchS
  | withF (s : FetchS) : FetchS
  | withoutF (s : FetchS) : FetchS
  | tup (ss : List FetchS) : FetchS
deriving Repr

/-- Items yielded per row: an entity handle, a shared or exclusive
reference into a column (archetype, type, row), an optional item, or a
tuple of items. -/
inductive Item where
  | ent (id : Nat) : Item
  | ref (a : Archetype) (t : Nat) (row : Nat) : Item
  | mref (a : Archetype) (t : Nat) (row : Nat) : Item
  | opt (i : Option Item) : Item
  | tup (is : List Item) : Item
deriving Repr

mutual

/-- Embeds `unsafe fn get(archetype, offset) -> Option<Self>` of each
`Fetch` impl: `EntityFetch` always succeeds, `FetchRead`/`FetchWrite` map
over `archetype.get::<T>()`, `TryFetch` always succeeds wrapping the inner
attempt, `FetchWith`/`FetchWithout` test `archetype.has::<T>()` first, and
the tuple requires every child to succeed. -/
def Q.getF : Q → Archetype → Nat → Option FetchS
  | .ent, a, off => some (.ent a.entities off)
  | .read t, a, off => (a.getCol t).map fun _ => .read a t off
  | .write t, a, off => (a.getCol t).map fun _ => .write a t off
  | .opt q, a, off => some (.opt (Q.getF q a off))
  | .withQ t q, a, off =>
    if a.has t then (Q.getF q a off).map .withF else none
  | .withoutQ t q, a, off =>
    if a.has t then none else (Q.getF q a off).map .withoutF
  | .tup qs, a, off => (Q.getFList qs a off).map .tup

/-- The tuple `get`: `Some(($($name::get(archetype, offset)?,)*))`. -/
def Q.getFList : List Q → Archetype → Nat → Option (List FetchS)
  | [], _, _ => some []
  | q :: qs, a, off =>
    match Q.getF q a off, Q.getFList qs a off with
    | some s, some ss => some (s :: ss)
    | _, _ => none

end

mutual

/-- Embeds `unsafe fn next(&mut self) -> Self::Item`: dereference the
current pointer and advance it by one row. -/
def FetchS.nextF : FetchS → Item × FetchS
  | .ent arr p => (.ent (arr.getD p 0), .ent arr (p + 1))
  | .read a t p => (.ref a t p, .read a t (p + 1))
  | .write a t p => (.mref a t p, .write a t (p + 1))
  | .opt none => (.opt none, .opt none)
  | .opt (some s) =>
    (.opt (some (FetchS.nextF s).1), .opt (some (FetchS.nextF s).2))
  | .withF s => ((FetchS.nextF s).1, .withF (FetchS.nextF s).2)
  | .withoutF s => ((FetchS.nextF s).1, .withoutF (FetchS.nextF s).2)
  | .tup ss => (.tup (FetchS.nextFList ss).1, .tup (FetchS.nextFList ss).2)

/-- The tuple `next`: advance every child, yield the tuple of items. -/
def FetchS.nextFList : List FetchS → List Item × List FetchS
  | [] => ([], [])
  | s :: ss =>
    ((FetchS.nextF s).1 :: (FetchS.nextFList ss).1,
     (FetchS.nextF s).2 :: (FetchS.nextFList ss).2)

end

example : Q.access (Q.tup [Q.ent, Q.read 3]) ⟨[3], 2, [9, 8]⟩ = some .read := by
  rfl

example : Q.getF (Q.opt (Q.read 4)) ⟨[3], 2, [9, 8]⟩ 0 = some (.opt none) := by
  rfl

example :
    (FetchS.nextF (.tup [.ent [9, 8] 0])).1 = .tup [.ent 9] := by
  rfl

mutual

/-- Per-row item of a query, following the per-row yield column of the
spec's query table (§4.6): the entity handle at the row, a (shared or
exclusive) reference to the component at the row, `Some(item)` exactly when
the inner query matched the archetype, the inner item for `With`/`Without`,
and the tuple of the children's items. -/
def Q.itemAt : Q → Archetype → Nat → Item
  | .ent, a, r => .ent (a.entities.getD r 0)
  | .read t, a, r => .ref a t r
  | .write t, a, r => .mref a t r
  | .opt q, a, r =>
    .opt (if (Q.access q a).isSome then some (Q.itemAt q a r) else none)
  | .withQ _ q, a, r => Q.itemAt q a r
  | .withoutQ _ q, a, r => Q.itemAt q a r
  | .tup qs, a, r => .tup (Q.itemAtList qs a r)

/-- Tuple of the children's per-row items. -/
def Q.itemAtList : List Q → Archetype → Nat → List Item
  | [], _, _ => []
  | q :: qs, a, r => Q.itemAt q a r :: Q.itemAtList qs a r

end

/-- Code-level item produced at row `off` of an archetype: construct the
fetch with `get(archetype, off)` and, when it succeeds, take the item of
its first `next()` call. -/
def Q.getItem (q : Q) (a : Archetype) (off : Nat) : Option Item :=
  (Q.getF q a off).map fun s => (FetchS.nextF s).1

/-- Embeds `ChunkIter::next` iterated to exhaustion: starting from fetch
state `f` with `len` remaining rows, the list of items yielded (`len == 0`
stops, otherwise `len -= 1` and `fetch.next()`). -/
def chunkItems : FetchS → Nat → List Item
  | _, 0 => []
  | f, l + 1 => (FetchS.nextF f).1 :: chunkItems (FetchS.nextF f).2 l

/-- State of `QueryIter`: the suffix of `borrow.archetypes` that has not
been entered yet (the source keeps the full slice plus `archetype_index`;
we keep the remaining suffix `archetypes[archetype_index..]`), and the
active chunk `Option<(fetch, remaining_len)>`. -/
def QState : Type := List Archetype × Option (FetchS × Nat)

/-- The archetype-advancing loop of `QueryIter::next` (`query.rs:469-497`):
with no active chunk, take the next archetype, build its fetch at offset 0;
on success the chunk starts with `archetype.len()` remaining rows and its
first item is yielded by the same `next()` call; a failed fetch or an
exhausted chunk moves on to the following archetype; an exhausted archetype
list returns `None`. -/
def qadvance (q : Q) : List Archetype → Option (Item × QState)
  | [] => none
  | arch :: rest =>
    match Q.getF q arch 0 with
    | some f =>
      match arch.len with
      | 0 => qadvance q rest
      | l + 1 => some ((FetchS.nextF f).1, (rest, some ((FetchS.nextF f).2, l)))
    | none => qadvance q rest

/-- Embeds `impl Iterator for QueryIter`'s `fn next`: serve from the active
chunk while it has remaining rows, otherwise clear it and continue with the
archetype-advancing loop. -/
def qnext (q : Q) : QState → Option (Item × QState)
  | (rest, some (f, l + 1)) =>
    some ((FetchS.nextF f).1, (rest, some ((FetchS.nextF f).2, l)))
  | (rest, some (_, 0)) => qadvance q rest
  | (rest, none) => qadvance q rest

/-- Drain the query iterator: collect the items of up to `fuel` calls of
`next`, stopping at the first `None`. -/
def qdrain (q : Q) : Nat → QState → List Item
  | 0, _ => []
  | fuel + 1, s =>
    match qnext q s with
    | none => []
    | some (it, s') => it :: qdrain q fuel s'

/-- The state reached after `k` item-yielding calls of `QueryIter::next`
(`none` once the iterator has reported exhaustion). -/
def qnextN (q : Q) : Nat → QState → Option QState
  | 0, s => some s
  | k + 1, s =>
    match qnext q s with
    | none => none
    | some (_, s') => qnextN q k s'

/-- The modulus of the machine `u32` arithmetic used by `BatchedIter`. -/
def U32 : Nat := 4294967296

/-- Embeds `impl Iterator for BatchedIter`'s `fn next`
(`query.rs:545-576`), with the state split as (remaining archetype suffix,
current batch index) and the fixed `batch_size` passed as `n`.  The offset
is the `u32` product `batch_size * batch`; an offset past the archetype's
length, or a failed fetch, moves to the next archetype and resets the batch
index; otherwise the batch of `batch_size.min(archetype.len() - offset)`
rows is yielded and the batch index incremented. -/
def bnextGo (q : Q) (n : Nat) : List Archetype → Nat → Option ((FetchS × Nat) × (List Archetype × Nat))
  | [], _ => none
  | arch :: rest, b =>
    if arch.len ≤ n * b % U32 then bnextGo q n rest 0
    else
      match Q.getF q arch (n * b % U32) with
      | some f =>
        some ((f, min n (arch.len - n * b % U32)), (arch :: rest, b + 1))
      | none => bnextGo q n rest 0

/-- Drain the batched iterator: the list of the (fetch, length) chunks of
up to `fuel` batches. -/
def bdrain (q : Q) (n : Nat) : Nat → List Archetype × Nat → List (FetchS × Nat)
  | 0, _ => []
  | fuel + 1, s =>
    match bnextGo q n s.1 s.2 with
    | none => []
    | some (c, s') => c :: bdrain q n fuel s'

/-- The state reached after `k` batch-yielding calls of
`BatchedIter::next` (`none` once the iterator has reported exhaustion). -/
def bnextN (q : Q) (n : Nat) : Nat → List Archetype × Nat → Option (List Archetype × Nat)
  | 0, s => some s
  | k + 1, s =>
    match bnextGo q n s.1 s.2 with
    | none => none
    | some (_, s') => bnextN q n k s'

/-- Number of batches a matched archetype of `len` rows produces for batch
size `n ≥ 1`: the offsets `n*k` with `n*k < len`, i.e. `⌈len / n⌉`. -/
def numBatches (len n : Nat) : Nat := (len + n - 1) / n

/-- The item sequence `iter()` produces, archetype by archetype: for each
archetype whose fetch initializes at offset 0, its rows in increasing
index order. -/
def iterItems (q : Q) (archs : List Archetype) : List Item :=
  (archs.map fun a =>
    if (Q.getF q a 0).isSome then (List.range a.len).map (Q.itemAt q a) else []).flatten

/-- The batch layout claimed for `iter_batched(n)`: per matched archetype,
batch `k` spans `min(n, len - n*k)` rows starting at offset `n*k`. -/
def batchLists (q : Q) (archs : List Archetype) (n : Nat) : List (List Item) :=
  (archs.map fun a =>
    if (Q.getF q a 0).isSome then
      (List.range (numBatches a.len n)).map fun k =>
        (List.range (min n (a.len - n * k))).map fun j => Q.itemAt q a (n * k + j)
    else []).flatten

/-- Total number of batches, used as the drain fuel bound. -/
def batchCount (q : Q) (archs : List Archetype) (n : Nat) : Nat :=
  (batchLists q archs n).length

/-- Embeds `struct QueryBorrow`: the captured archetype slice and the
`borrowed` flag (the query type parameter `Q` is passed to the operations
explicitly). -/
structure QueryBorrow where
  archetypes : List Archetype
  borrowed : Bool
deriving DecidableEq, Repr

/-- The panic message of `QueryBorrow::borrow`. -/
def panicMsg : String :=
  "called QueryBorrow::iter twice on the same borrow; construct a new query instead"

/-- The archetypes on which the borrow loop of `QueryBorrow::borrow` calls
`Q::Fetch::borrow`, in order: those with
`Q::Fetch::access(x) >= Some(Access::Read)`. -/
def borrowTrace (q : Q) (archs : List Archetype) : List Archetype :=
  archs.filter fun x => optAccessGE (Q.access q x) (some .read)

/-- Embeds `QueryBorrow::borrow` (`query.rs:359-372`): panic if already
borrowed, otherwise walk every archetype, acquiring the dynamic borrows of
those whose access is at least `Read`, and set `borrowed = true`.  The
returned list is the trace of archetypes passed to `Q::Fetch::borrow`. -/
def QueryBorrow.borrowStep (q : Q) (b : QueryBorrow) : Except String (QueryBorrow × List Archetype) :=
  if b.borrowed then .error panicMsg
  else .ok (⟨b.archetypes, true⟩, borrowTrace q b.archetypes)

/-- Embeds `QueryBorrow::iter`: run `borrow`, then start a `QueryIter`
at `archetype_index = 0` with no chunk. -/
def QueryBorrow.iterStart (q : Q) (b : QueryBorrow) :
    Except String (QueryBorrow × QState × List Archetype) :=
  (QueryBorrow.borrowStep q b).map fun r => (r.1, (r.1.archetypes, none), r.2)

/-- Embeds `QueryBorrow::iter_batched`: run `borrow`, then start a
`BatchedIter` at `archetype_index = 0`, `batch = 0`. -/
def QueryBorrow.iterBatchedStart (q : Q) (_n : Nat) (b : QueryBorrow) :
    Except String (QueryBorrow × (List Archetype × Nat) × List Archetype) :=
  (QueryBorrow.borrowStep q b).map fun r => (r.1, (r.1.archetypes, 0), r.2)

/-- Embeds `impl Drop for QueryBorrow` (`query.rs:438-448`): if `borrowed`,
call `Q::Fetch::release` on every archetype whose access is at least
`Read`.  The result is the trace of archetypes passed to `release`. -/
def QueryBorrow.dropRun (q : Q) (b : QueryBorrow) : List Archetype :=
  if b.borrowed then borrowTrace q b.archetypes else []

/-- Embeds `QueryBorrow::transform` (`query.rs:423-432`): the new borrow of
the transformed query type keeps the archetypes and the `borrowed` flag;
the consumed borrow gets `borrowed = false` so its `Drop` is suppressed.
Returns (new borrow, consumed borrow after suppression). -/
def QueryBorrow.transform (b : QueryBorrow) : QueryBorrow × QueryBorrow :=
  (⟨b.archetypes, b.borrowed⟩, ⟨b.archetypes, false⟩)

/-- Embeds `ExactSizeIterator::len` of `QueryIter` (`query.rs:505-514`):
the sum of `archetype.len` over the archetypes of the underlying borrow
whose access is defined.  The iterator's cursor state is not read. -/
def QueryIter.lenFn (q : Q) (b : QueryBorrow) (_s : QState) : Nat :=
  (((b.archetypes.filter fun x => (Q.access q x).isSome).map fun x => x.len)).sum

/-- Embeds `QueryIter::size_hint`: `(len, Some(len))`. -/
def QueryIter.sizeHintFn (q : Q) (b : QueryBorrow) (s : QState) : Nat × Option Nat :=
  (QueryIter.lenFn q b s, some (QueryIter.lenFn q b s))

example :
    qdrain Q.ent 9 ([⟨[], 2, [4, 5]⟩, ⟨[], 1, [6]⟩], none) =
      [Item.ent 4, Item.ent 5, Item.ent 6] := by
  rfl

example :
    (bdrain Q.ent 2 9 ([⟨[], 3, [4, 5, 6]⟩], 0)).map (fun c => chunkItems c.1 c.2) =
      [[Item.ent 4, Item.ent 5], [Item.ent 6]] := by
  rfl

example : iterItems (Q.read 7) [⟨[7], 2, [4, 5]⟩, ⟨[], 9, []⟩] =
    [Item.ref ⟨[7], 2, [4, 5]⟩ 7 0, Item.ref ⟨[7], 2, [4, 5]⟩ 7 1] := by
  rfl

mutual

/-- `Fetch::get` succeeds exactly when `Fetch::access` is defined, at any
offset (the invariant behind the `debug_assert` in `BatchedIter::next`). -/
theorem getF_isSome : ∀ (q : Q) (a : Archetype) (off : Nat),
    (Q.getF q a off).isSome = (Q.access q a).isSome
  | .ent, a, off => by simp [Q.getF, Q.access]
  | .read t, a, off => by
    simp only [Q.getF, Q.access, Archetype.getCol]
    cases a.has t <;> simp
  | .write t, a, off => by
    simp only [Q.getF, Q.access, Archetype.getCol]
    cases a.has t <;> simp
  | .opt q, a, off => by simp [Q.getF, Q.access]
  | .withQ t q, a, off => by
    simp only [Q.getF, Q.access]
    cases a.has t <;> simp [getF_isSome q a off]
  | .withoutQ t q, a, off => by
    simp only [Q.getF, Q.access]
    cases a.has t <;> simp [getF_isSome q a off]
  | .tup qs, a, off => by
    have hmap : ∀ (o : Option (List FetchS)), (o.map FetchS.tup).isSome = o.isSome := by
      intro o; cases o <;> rfl
    simp only [Q.getF, Q.access, hmap]
    exact getFList_isSome qs a off .iterate

/-- List version of `getF_isSome`: the tuple `get` succeeds exactly when
the tuple `access` loop is defined, for any accumulator. -/
theorem getFList_isSome : ∀ (qs : List Q) (a : Archetype) (off : Nat) (acc : Access),
    (Q.getFList qs a off).isSome = (Q.accessFold acc qs a).isSome
  | [], a, off, acc => by simp [Q.getFList, Q.accessFold]
  | q :: qs, a, off, acc => by
    simp only [Q.getFList, Q.accessFold]
    have hq := getF_isSome q a off
    cases hacc : Q.access q a with
    | none =>
      have : Q.getF q a off = none := by
        rw [hacc] at hq; exact Option.not_isSome_iff_eq_none.mp (by simp [hq])
      simp [this]
    | some x =>
      have : ∃ s, Q.getF q a off = some s := by
        rw [hacc] at hq
        exact Option.isSome_iff_exists.mp (by simp [hq])
      obtain ⟨s, hs⟩ := this
      have hl := getFList_isSome qs a off (acc.maxA x)
      cases hss : Q.getFList qs a off with
      | none => simp [hss] at hl; simp [hs, hss, ← hl]
      | some ss => simp [hss] at hl; simp [hs, hss, ← hl]

end

mutual

/-- Stepping a fetch constructed at offset `off` yields the per-row item of
row `off`, and leaves the fetch in the state `get` would produce at
`off + 1` (pointer advanced by one row). -/
theorem getF_step : ∀ (q : Q) (a : Archetype) (off : Nat) (s : FetchS),
    Q.getF q a off = some s →
    (FetchS.nextF s).1 = Q.itemAt q a off ∧
      Q.getF q a (off + 1) = some (FetchS.nextF s).2
  | .ent, a, off, s => by
    intro h
    simp only [Q.getF, Option.some.injEq] at h
    subst h
    simp [Q.getF, FetchS.nextF, Q.itemAt]
  | .read t, a, off, s => by
    intro h
    simp only [Q.getF, Archetype.getCol] at h ⊢
    cases ht : a.has t <;> simp [ht] at h
    subst h
    simp [FetchS.nextF, Q.itemAt, ht]
  | .write t, a, off, s => by
    intro h
    simp only [Q.getF, Archetype.getCol] at h ⊢
    cases ht : a.has t <;> simp [ht] at h
    subst h
    simp [FetchS.nextF, Q.itemAt, ht]
  | .opt q, a, off, s => by
    intro h
    simp only [Q.getF, Option.some.injEq] at h
    cases hg : Q.getF q a off with
    | none =>
      rw [hg] at h; subst h
      have h1 := getF_isSome q a off
      have h2 := getF_isSome q a (off + 1)
      rw [hg] at h1
      have hacc : (Q.access q a).isSome = false := by simp [← h1]
      have hg2 : Q.getF q a (off + 1) = none :=
        Option.not_isSome_iff_eq_none.mp (by simp [h2, hacc])
      simp [FetchS.nextF, Q.itemAt, Q.getF, hacc, hg2]
    | some s' =>
      rw [hg] at h; subst h
      obtain ⟨hi, hn⟩ := getF_step q a off s' hg
      have hacc : (Q.access q a).isSome = true := by
        rw [← getF_isSome q a off, hg]; rfl
      simp [FetchS.nextF, Q.itemAt, Q.getF, hacc, hi, hn]
  | .withQ t q, a, off, s => by
    intro h
    simp only [Q.getF] at h
    cases ht : a.has t <;> simp [ht] at h
    obtain ⟨s', hg, hs⟩ := h
    subst hs
    obtain ⟨hi, hn⟩ := getF_step q a off s' hg
    simp [FetchS.nextF, Q.itemAt, Q.getF, ht, hi, hn]
  | .withoutQ t q, a, off, s => by
    intro h
    simp only [Q.getF] at h
    cases ht : a.has t <;> simp [ht] at h
    obtain ⟨s', hg, hs⟩ := h
    subst hs
    obtain ⟨hi, hn⟩ := getF_step q a off s' hg
    simp [FetchS.nextF, Q.itemAt, Q.getF, ht, hi, hn]
  | .tup qs, a, off, s => by
    intro h
    simp only [Q.getF] at h
    cases hg : Q.getFList qs a off <;> simp [hg] at h
    subst h
    obtain ⟨hi, hn⟩ := getFList_step qs a off _ hg
    simp [FetchS.nextF, Q.itemAt, Q.getF, hi, hn]

/-- List version of `getF_step` for the tuple fetch. -/
theorem getFList_step : ∀ (qs : List Q) (a : Archetype) (off : Nat) (ss : List FetchS),
    Q.getFList qs a off = some ss →
    (FetchS.nextFList ss).1 = Q.itemAtList qs a off ∧
      Q.getFList qs a (off + 1) = some (FetchS.nextFList ss).2
  | [], a, off, ss => by
    intro h
    simp only [Q.getFList, Option.some.injEq] at h
    subst h
    simp [FetchS.nextFList, Q.itemAtList, Q.getFList]
  | q :: qs, a, off, ss => by
    intro h
    simp only [Q.getFList] at h
    cases hg : Q.getF q a off <;> rw [hg] at h
    · exact absurd h (by simp)
    case some s =>
      cases hgs : Q.getFList qs a off <;> rw [hgs] at h
      · exact absurd h (by simp)
      case some ss' =>
        simp only [Option.some.injEq] at h
        subst h
        obtain ⟨hi, hn⟩ := getF_step q a off s hg
        obtain ⟨his, hns⟩ := getFList_step qs a off ss' hgs
        simp [FetchS.nextFList, Q.itemAtList, Q.getFList, hi, hn, his, hns]

end

/-- Draining a `ChunkIter` of `l` rows whose fetch was built at offset
`off` yields the items of rows `off, off+1, …, off+l-1`, in increasing row
order. -/
theorem chunkItems_eq (q : Q) (a : Archetype) :
    ∀ (l off : Nat) (f : FetchS), Q.getF q a off = some f →
      chunkItems f l = (List.range l).map fun j => Q.itemAt q a (off + j) := by
  intro l
  induction l with
  | zero => intro off f _; simp [chunkItems]
  | succ l ih =>
    intro off f hf
    obtain ⟨hi, hn⟩ := getF_step q a off f hf
    have htail := ih (off + 1) (FetchS.nextF f).2 hn
    rw [List.range_succ_eq_map]
    simp only [chunkItems, List.map_cons, List.map_map]
    refine congrArg₂ List.cons ?_ ?_
    · simpa using hi
    · rw [htail]
      apply List.map_congr_left
      intro j _
      simp only [Function.comp_apply]
      congr 1
      omega

/-- An exhausted chunk is dropped by `QueryIter::next` before anything is
yielded: draining from a zero-length chunk drains from the cleared state. -/
theorem qdrain_zero_chunk (q : Q) (fuel : Nat) (f : FetchS) (rest : List Archetype) :
    qdrain q fuel (rest, some (f, 0)) = qdrain q fuel (rest, none) := by
  cases fuel <;> simp [qdrain, qnext]

/-- A skipped archetype (failed fetch) is passed over without yielding. -/
theorem qdrain_skipped (q : Q) (fuel : Nat) (arch : Archetype) (rest : List Archetype)
    (h : qadvance q (arch :: rest) = qadvance q rest) :
    qdrain q fuel (arch :: rest, none) = qdrain q fuel (rest, none) := by
  cases fuel <;> simp [qdrain, qnext, h]

/-- Consuming an active chunk of `l` remaining rows yields its items, then
continues from the cleared state, spending `l` units of drain fuel. -/
theorem qdrain_chunk (q : Q) :
    ∀ (l fuel : Nat) (f : FetchS) (rest : List Archetype),
      qdrain q (l + fuel) (rest, some (f, l)) =
        chunkItems f l ++ qdrain q fuel (rest, none) := by
  intro l
  induction l with
  | zero =>
    intro fuel f rest
    simpa [chunkItems] using qdrain_zero_chunk q fuel f rest
  | succ l ih =>
    intro fuel f rest
    have : l + 1 + fuel = (l + fuel) + 1 := by omega
    rw [this]
    simp only [qdrain, qnext, chunkItems, List.cons_append]
    rw [ih fuel (FetchS.nextF f).2 rest]

/-- Draining `QueryIter` from the start of the archetype list with enough
fuel produces exactly `iterItems`: for each archetype in order whose fetch
initializes at offset 0, its `archetype.len()` rows in increasing index
order. -/
theorem qdrain_main (q : Q) :
    ∀ (archs : List Archetype) (fuel : Nat),
      (iterItems q archs).length ≤ fuel →
      qdrain q fuel (archs, none) = iterItems q archs := by
  intro archs
  induction archs with
  | nil =>
    intro fuel _
    cases fuel <;> simp [qdrain, qnext, qadvance, iterItems]
  | cons arch rest ih =>
    intro fuel h
    have hsplit : iterItems q (arch :: rest) =
        (if (Q.getF q arch 0).isSome then
          (List.range arch.len).map (Q.itemAt q arch) else []) ++ iterItems q rest := by
      simp [iterItems]
    cases hg : Q.getF q arch 0 with
    | none =>
      have hadv : qadvance q (arch :: rest) = qadvance q rest := by
        simp [qadvance, hg]
      rw [qdrain_skipped q fuel arch rest hadv, hsplit, hg]
      simp only [Option.isSome_none, Bool.false_eq_true, if_false, List.nil_append]
      refine ih fuel ?_
      rw [hsplit, hg] at h
      simpa using h
    | some f =>
      cases hl : arch.len with
      | zero =>
        have hadv : qadvance q (arch :: rest) = qadvance q rest := by
          simp [qadvance, hg, hl]
        rw [qdrain_skipped q fuel arch rest hadv, hsplit, hg, hl]
        simp only [Option.isSome_some, if_true, List.range_zero, List.map_nil,
          List.nil_append]
        refine ih fuel ?_
        rw [hsplit, hg, hl] at h
        simpa using h
      | succ l =>
        rw [hsplit, hg, hl] at h
        simp only [Option.isSome_some, if_true, List.length_append,
          List.length_map, List.length_range] at h
        obtain ⟨fuel', rfl⟩ : ∃ fuel', fuel = (l + fuel') + 1 :=
          ⟨fuel - l - 1, by omega⟩
        obtain ⟨hi, hn⟩ := getF_step q arch 0 f hg
        simp only [qdrain, qnext, qadvance, hg, hl]
        rw [qdrain_chunk q l fuel' (FetchS.nextF f).2 rest]
        rw [chunkItems_eq q arch l 1 (FetchS.nextF f).2 hn]
        rw [ih fuel' (by omega), hsplit, hg, hl]
        simp only [Option.isSome_some, if_true]
        rw [List.range_succ_eq_map]
        simp only [List.map_cons, List.map_map, List.cons_append]
        refine congrArg₂ List.cons ?_ ?_
        · simpa using hi
        · refine congrArg₂ List.append ?_ rfl
          apply List.map_congr_left
          intro j _
          simp only [Function.comp_apply]
          congr 1
          omega

/-- Batch index `b` is in range exactly when its row offset `n * b` is
inside the archetype. -/
theorem lt_numBatches_iff (n : Nat) (hn : 1 ≤ n) (len b : Nat) :
    b < numBatches len n ↔ n * b < len := by
  unfold numBatches
  rw [Nat.lt_iff_add_one_le, Nat.le_div_iff_mul_le hn]
  have h1 : (b + 1) * n = n * b + n := by ring
  rw [h1]
  generalize n * b = x
  omega

/-- Two batched-iterator states with the same `next` behaviour drain to the
same batches. -/
theorem bdrain_congr (q : Q) (n fuel : Nat) (s t : List Archetype × Nat)
    (h : bnextGo q n s.1 s.2 = bnextGo q n t.1 t.2) :
    bdrain q n fuel s = bdrain q n fuel t := by
  cases fuel <;> simp [bdrain, h]

/-- Draining `BatchedIter` across one matched archetype: starting at batch
index `b` (with `K` batches left in this archetype and no `u32` overflow),
the batches are exactly those at offsets `n*(b+j)` of `min n (len - n*(b+j))`
rows, after which iteration continues with the remaining archetypes. -/
theorem bdrain_arch (q : Q) (n : Nat) (hn : 1 ≤ n) (arch : Archetype)
    (hov : arch.len + n ≤ U32) (hm : (Q.getF q arch 0).isSome = true)
    (rest : List Archetype) :
    ∀ (K b fuel : Nat), K = numBatches arch.len n - b → n * b < arch.len + n →
      (bdrain q n (K + fuel) (arch :: rest, b)).map (fun c => chunkItems c.1 c.2) =
        ((List.range K).map fun j =>
          (List.range (min n (arch.len - n * (b + j)))).map fun i =>
            Q.itemAt q arch (n * (b + j) + i))
        ++ (bdrain q n fuel (rest, 0)).map (fun c => chunkItems c.1 c.2) := by
  intro K
  induction K with
  | zero =>
    intro b fuel hK hb
    have hnb : ¬ n * b < arch.len := by
      rw [← lt_numBatches_iff n hn arch.len b]
      omega
    have hmod : n * b % U32 = n * b := Nat.mod_eq_of_lt (by omega)
    have hskip : bnextGo q n (arch :: rest) b = bnextGo q n rest 0 := by
      simp only [bnextGo, hmod]
      rw [if_pos (by omega)]
    rw [Nat.zero_add, bdrain_congr q n fuel (arch :: rest, b) (rest, 0) hskip]
    simp
  | succ K ih =>
    intro b fuel hK hb
    have hbnum : b < numBatches arch.len n := by omega
    have hnb : n * b < arch.len := (lt_numBatches_iff n hn arch.len b).mp hbnum
    have hmod : n * b % U32 = n * b := Nat.mod_eq_of_lt (by omega)
    have hsome : (Q.getF q arch (n * b)).isSome = true := by
      rw [getF_isSome, ← getF_isSome q arch 0]
      exact hm
    obtain ⟨f, hf⟩ := Option.isSome_iff_exists.mp hsome
    have hstep : bnextGo q n (arch :: rest) b =
        some ((f, min n (arch.len - n * b)), (arch :: rest, b + 1)) := by
      simp only [bnextGo, hmod]
      rw [if_neg (by omega), hf]
    have hfuel : K + 1 + fuel = (K + fuel) + 1 := by omega
    rw [hfuel]
    simp only [bdrain, hstep, List.map_cons]
    have hmul : n * (b + 1) = n * b + n := Nat.mul_succ n b
    rw [ih (b + 1) fuel (by omega) (by omega)]
    rw [List.range_succ_eq_map]
    simp only [List.map_cons, List.map_map, List.cons_append]
    refine congrArg₂ List.cons ?_ (congrArg₂ List.append ?_ rfl)
    · rw [chunkItems_eq q arch (min n (arch.len - n * b)) (n * b) f hf]
      simp
    · apply List.map_congr_left
      intro j _
      simp only [Function.comp_apply]
      have : b + (j + 1) = b + 1 + j := by omega
      rw [this]

/-- An archetype whose fetch fails is passed over by `BatchedIter::next`
without yielding a batch (at the first batch index, matching the
`debug_assert`). -/
theorem bdrain_skip (q : Q) (n : Nat) (arch : Archetype) (rest : List Archetype)
    (h : (Q.getF q arch 0).isSome = false) (fuel : Nat) :
    bdrain q n fuel (arch :: rest, 0) = bdrain q n fuel (rest, 0) := by
  apply bdrain_congr
  have hg : Q.getF q arch 0 = none := Option.not_isSome_iff_eq_none.mp (by simp [h])
  simp only [bnextGo, Nat.mul_zero, Nat.zero_mod]
  by_cases hl : arch.len ≤ 0
  · rw [if_pos hl]
  · rw [if_neg hl, hg]

/-- Draining `BatchedIter` from the start with enough fuel produces, per
matched archetype in order, the batch at index `k` spanning
`min(n, len - n*k)` rows at offset `n*k`. -/
theorem bdrain_main (q : Q) (n : Nat) (hn : 1 ≤ n) :
    ∀ (archs : List Archetype), (∀ a ∈ archs, a.len + n ≤ U32) →
      ∀ fuel, batchCount q archs n ≤ fuel →
      (bdrain q n fuel (archs, 0)).map (fun c => chunkItems c.1 c.2) =
        batchLists q archs n := by
  intro archs
  induction archs with
  | nil =>
    intro _ fuel _
    cases fuel <;> simp [bdrain, bnextGo, batchLists]
  | cons arch rest ih =>
    intro hov fuel hfuel
    have hsplit : batchLists q (arch :: rest) n =
        (if (Q.getF q arch 0).isSome then
          (List.range (numBatches arch.len n)).map fun k =>
            (List.range (min n (arch.len - n * k))).map fun i =>
              Q.itemAt q arch (n * k + i)
         else []) ++ batchLists q rest n := by
      simp [batchLists]
    have hcount : batchCount q (arch :: rest) n =
        (if (Q.getF q arch 0).isSome then numBatches arch.len n else 0) +
          batchCount q rest n := by
      unfold batchCount
      rw [hsplit]
      cases (Q.getF q arch 0).isSome <;> simp
    cases hm : (Q.getF q arch 0).isSome with
    | false =>
      rw [bdrain_skip q n arch rest hm fuel, hsplit, hm]
      simp only [Bool.false_eq_true, if_false, List.nil_append]
      refine ih (fun a ha => hov a (by simp [ha])) fuel ?_
      rw [hcount, hm] at hfuel
      simpa using hfuel
    | true =>
      rw [hcount, hm] at hfuel
      simp only [if_true] at hfuel
      obtain ⟨fuel', rfl⟩ : ∃ fuel', fuel = numBatches arch.len n + fuel' :=
        ⟨fuel - numBatches arch.len n, by omega⟩
      rw [bdrain_arch q n hn arch (hov arch (by simp)) hm rest
        (numBatches arch.len n) 0 fuel' (by omega) (by simp; omega)]
      rw [hsplit, hm]
      simp only [if_true]
      refine congrArg₂ List.append ?_ ?_
      · apply List.map_congr_left
        intro k _
        simp
      · exact ih (fun a ha => hov a (by simp [ha])) fuel' (by omega)

/-- Flattening the batch layout of one archetype reconstructs its rows in
increasing order: batches of `min n (len - n*k)` rows at offsets `n*k` are
disjoint and together cover rows `0 … len-1`. -/
theorem batch_flatten (n : Nat) (hn : 1 ≤ n) (len : Nat) (g : Nat → Item) :
    ∀ (K b : Nat), K = numBatches len n - b → n * b ≤ len →
      ((List.range K).map fun j =>
        (List.range (min n (len - n * (b + j)))).map fun i => g (n * (b + j) + i)).flatten
        = (List.range (len - n * b)).map fun j => g (n * b + j) := by
  intro K
  induction K with
  | zero =>
    intro b hK hb
    have hnum : ¬ b < numBatches len n := by omega
    rw [lt_numBatches_iff n hn len b] at hnum
    have hlen : len - n * b = 0 := by omega
    simp [hlen]
  | succ K ih =>
    intro b hK hb
    have hbnum : b < numBatches len n := by omega
    have hnb : n * b < len := (lt_numBatches_iff n hn len b).mp hbnum
    have hmul : n * (b + 1) = n * b + n := Nat.mul_succ n b
    rw [List.range_succ_eq_map]
    simp only [List.map_cons, List.map_map, List.flatten_cons]
    by_cases hcase : len - n * b ≤ n
    · have hmin : min n (len - n * (b + 0)) = len - n * b := by
        simp only [Nat.add_zero]
        omega
      have hK0 : K = 0 := by
        have h1 : ¬ b + 1 < numBatches len n := by
          rw [lt_numBatches_iff n hn len (b + 1)]
          omega
        omega
      rw [hK0, hmin]
      simp
    · have hmin : min n (len - n * (b + 0)) = n := by
        simp only [Nat.add_zero]
        omega
      have htail :
          ((List.range K).map ((fun j =>
            (List.range (min n (len - n * (b + j)))).map fun i =>
              g (n * (b + j) + i)) ∘ Nat.succ)).flatten
            = (List.range (len - n * (b + 1))).map fun j => g (n * (b + 1) + j) := by
        rw [show ((List.range K).map ((fun j =>
            (List.range (min n (len - n * (b + j)))).map fun i =>
              g (n * (b + j) + i)) ∘ Nat.succ))
          = ((List.range K).map fun j =>
            (List.range (min n (len - n * (b + 1 + j)))).map fun i =>
              g (n * (b + 1 + j) + i)) from ?_]
        · exact ih (b + 1) (by omega) (by omega)
        · apply List.map_congr_left
          intro j _
          simp only [Function.comp_apply]
          have : b + (j + 1) = b + 1 + j := by omega
          rw [this]
      rw [htail, hmin]
      have hsplitlen : len - n * b = n + (len - n * (b + 1)) := by omega
      rw [hsplitlen, List.range_add, List.map_append, List.map_map]
      refine congrArg₂ List.append ?_ ?_
      · apply List.map_congr_left
        intro i _
        simp
      · apply List.map_congr_left
        intro j _
        simp only [Function.comp_apply]
        congr 1
        omega

/-- Concatenating all batches of `iter_batched(n)` reconstructs the item
sequence of `iter()`. -/
theorem batchLists_flatten (q : Q) (n : Nat) (hn : 1 ≤ n) :
    ∀ (archs : List Archetype), (batchLists q archs n).flatten = iterItems q archs := by
  intro archs
  induction archs with
  | nil => simp [batchLists, iterItems]
  | cons arch rest ih =>
    have hsplit : batchLists q (arch :: rest) n =
        (if (Q.getF q arch 0).isSome then
          (List.range (numBatches arch.len n)).map fun k =>
            (List.range (min n (arch.len - n * k))).map fun i =>
              Q.itemAt q arch (n * k + i)
         else []) ++ batchLists q rest n := by
      simp [batchLists]
    have hsplit2 : iterItems q (arch :: rest) =
        (if (Q.getF q arch 0).isSome then
          (List.range arch.len).map (Q.itemAt q arch) else []) ++ iterItems q rest := by
      simp [iterItems]
    rw [hsplit, hsplit2, List.flatten_append]
    refine congrArg₂ List.append ?_ ih
    cases hm : (Q.getF q arch 0).isSome with
    | false => simp
    | true =>
      simp only [if_true]
      have hb := batch_flatten n hn arch.len (Q.itemAt q arch)
        (numBatches arch.len n) 0 (by omega) (by simp)
      simp only [Nat.zero_add, Nat.mul_zero, Nat.sub_zero] at hb
      exact hb.trans (by simp)

/-- The borrow-loop condition `access(x) >= Some(Access::Read)` holds
exactly for `Read` and `Write` access. -/
theorem optAccessGE_read_iff (o : Option Access) :
    optAccessGE o (some .read) =
      decide (o = some Access.read ∨ o = some Access.write) := by
  cases o with
  | none => rfl
  | some a => cases a <;> rfl

/-- Release condition of a `With`-transformed query: the original
condition conjoined with the component test. -/
theorem optAccessGE_withQ (q : Q) (t : Nat) (x : Archetype) :
    optAccessGE (Q.access (Q.withQ t q) x) (some .read) =
      (optAccessGE (Q.access q x) (some .read) && x.has t) := by
  simp only [Q.access]
  cases ht : x.has t <;> simp [ht, optAccessGE]

/-- Release condition of a `Without`-transformed query: the original
condition conjoined with the negated component test. -/
theorem optAccessGE_withoutQ (q : Q) (t : Nat) (x : Archetype) :
    optAccessGE (Q.access (Q.withoutQ t q) x) (some .read) =
      (optAccessGE (Q.access q x) (some .read) && !x.has t) := by
  simp only [Q.access]
  cases ht : x.has t <;> simp [ht, optAccessGE]

/-- `QueryIter::len` as a sum of per-archetype contributions. -/
theorem lenFn_sum (q : Q) (archs : List Archetype) :
    ((archs.filter fun x => (Q.access q x).isSome).map fun x => x.len).sum =
      (archs.map fun a => if (Q.access q a).isSome then a.len else 0).sum := by
  induction archs with
  | nil => simp
  | cons a rest ih =>
    cases h : (Q.access q a).isSome <;> simp [h, ih]

/-- With batch size 0, `BatchedIter::next` walks over empty or unmatched
archetypes and then yields a zero-length batch at the first non-empty
matched archetype, which stays at the head of the remaining list. -/
theorem bnextGo_zero_stuck (q : Q) (a : Archetype) (post : List Archetype)
    (ha : 0 < a.len) (hm : (Q.access q a).isSome = true) :
    ∀ (pre : List Archetype), (∀ x ∈ pre, x.len = 0 ∨ Q.access q x = none) →
      ∀ b, ∃ f b2, bnextGo q 0 (pre ++ a :: post) b = some ((f, 0), (a :: post, b2)) := by
  intro pre
  induction pre with
  | nil =>
    intro _ b
    have hg : (Q.getF q a (0 * b % U32)).isSome = true := by
      rw [getF_isSome]
      exact hm
    obtain ⟨f, hf⟩ := Option.isSome_iff_exists.mp hg
    refine ⟨f, b + 1, ?_⟩
    simp only [List.nil_append, bnextGo]
    rw [if_neg (by simp; omega), hf]
    simp
  | cons x pre ih =>
    intro hpre b
    have hx := hpre x (by simp)
    have hrest : ∀ y ∈ pre, y.len = 0 ∨ Q.access q y = none := fun y hy =>
      hpre y (by simp [hy])
    obtain ⟨f, b2, hres⟩ := ih hrest 0
    refine ⟨f, b2, ?_⟩
    simp only [List.cons_append, bnextGo]
    rcases hx with hx | hx
    · rw [if_pos (by simp [hx])]
      exact hres
    · by_cases hl : x.len ≤ 0 * b % U32
      · rw [if_pos hl]
        exact hres
      · rw [if_neg hl]
        have : Q.getF q x (0 * b % U32) = none := by
          apply Option.not_isSome_iff_eq_none.mp
          rw [getF_isSome, hx]
          simp
        rw [this]
        exact hres

/-- Left argument is bounded by `Ord::max`. -/
theorem Access.rank_le_maxA_left (x y : Access) : x.rank ≤ (x.maxA y).rank := by
  unfold Access.maxA
  split <;> omega

/-- Right argument is bounded by `Ord::max`. -/
theorem Access.rank_le_maxA_right (x y : Access) : y.rank ≤ (x.maxA y).rank := by
  unfold Access.maxA
  split <;> omega

/-- `Ord::max` returns one of its arguments. -/
theorem Access.maxA_eq_or (x y : Access) : x.maxA y = x ∨ x.maxA y = y := by
  unfold Access.maxA
  split
  · exact Or.inr rfl
  · exact Or.inl rfl

/-- The tuple `access` loop returns `None` exactly when some child's
access is `None`, for any accumulator. -/
theorem accessFold_none_iff (a : Archetype) :
    ∀ (qs : List Q) (acc : Access),
      Q.accessFold acc qs a = none ↔ ∃ q ∈ qs, Q.access q a = none := by
  intro qs
  induction qs with
  | nil => intro acc; simp [Q.accessFold]
  | cons q qs ih =>
    intro acc
    simp only [Q.accessFold]
    cases h : Q.access q a with
    | none => simp [h]
    | some x => simp [h, ih (acc.maxA x)]

/-- When the tuple `access` loop returns `Some x`, every child has a
defined access of rank at most `x`, and `x` is the accumulator or one of
the children's accesses. -/
theorem accessFold_some (a : Archetype) :
    ∀ (qs : List Q) (acc x : Access), Q.accessFold acc qs a = some x →
      acc.rank ≤ x.rank
      ∧ (∀ q ∈ qs, ∃ y, Q.access q a = some y ∧ y.rank ≤ x.rank)
      ∧ (x = acc ∨ ∃ q ∈ qs, Q.access q a = some x) := by
  intro qs
  induction qs with
  | nil =>
    intro acc x h
    simp only [Q.accessFold, Option.some.injEq] at h
    subst h
    exact ⟨le_refl _, by simp, Or.inl rfl⟩
  | cons q qs ih =>
    intro acc x h
    simp only [Q.accessFold] at h
    cases hq : Q.access q a with
    | none => rw [hq] at h; exact absurd h (by simp)
    | some y =>
      rw [hq] at h
      obtain ⟨h1, h2, h3⟩ := ih (acc.maxA y) x h
      have hyle : y.rank ≤ x.rank := le_trans (Access.rank_le_maxA_right acc y) h1
      refine ⟨le_trans (Access.rank_le_maxA_left acc y) h1, ?_, ?_⟩
      · intro q' hq'
        rcases List.mem_cons.mp hq' with rfl | hmem
        · exact ⟨y, hq, hyle⟩
        · exact h2 q' hmem
      · rcases h3 with h3 | ⟨q', hm, hacc'⟩
        · rcases Access.maxA_eq_or acc y with he | he
          · exact Or.inl (h3.trans he)
          · refine Or.inr ⟨q, by simp, ?_⟩
            rw [hq, h3, he]
        · exact Or.inr ⟨q', by simp [hm], hacc'⟩

/-- `mapM` of the per-child code-level items agrees with the tuple fetch's
child list. -/
theorem mapM_getItem (a : Archetype) (r : Nat) :
    ∀ (qs : List Q),
      (qs.mapM fun q => Q.getItem q a r) =
        (Q.getFList qs a r).map fun ss => (FetchS.nextFList ss).1 := by
  intro qs
  induction qs with
  | nil => rw [List.mapM_nil]; simp [Q.getFList, FetchS.nextFList]
  | cons q qs ih =>
    rw [List.mapM_cons]
    have hhead : Q.getItem q a r = (Q.getF q a r).map fun s => (FetchS.nextF s).1 := rfl
    cases hq : Q.getF q a r with
    | none =>
      rw [hhead, hq]
      simp [Q.getFList, hq]
    | some s =>
      rw [hhead, hq, ih]
      cases hqs : Q.getFList qs a r with
      | none => simp [Q.getFList, hq, hqs]
      | some ss => simp [Q.getFList, hq, hqs, FetchS.nextFList]

/-- Batch-size-0 invariant preservation: from a state whose remaining list
is the full list or the suffix headed by the first non-empty matched
archetype, any number of `next` calls succeeds and preserves the shape. -/
theorem bnextN_zero_stuck (q : Q) (pre post : List Archetype) (a : Archetype)
    (hpre : ∀ x ∈ pre, x.len = 0 ∨ Q.access q x = none)
    (ha : 0 < a.len) (hm : (Q.access q a).isSome = true) :
    ∀ (k : Nat) (s : List Archetype × Nat),
      (s.1 = pre ++ a :: post ∨ s.1 = a :: post) →
      ∃ s', bnextN q 0 k s = some s' ∧ (s'.1 = pre ++ a :: post ∨ s'.1 = a :: post) := by
  have hstep : ∀ (s : List Archetype × Nat), (s.1 = pre ++ a :: post ∨ s.1 = a :: post) →
      ∃ f b2, bnextGo q 0 s.1 s.2 = some ((f, 0), (a :: post, b2)) := by
    intro s hs
    rcases hs with hs | hs <;> rw [hs]
    · exact bnextGo_zero_stuck q a post ha hm pre hpre s.2
    · exact bnextGo_zero_stuck q a post ha hm [] (by simp) s.2
  intro k
  induction k with
  | zero => intro s hs; exact ⟨s, rfl, hs⟩
  | succ k ih =>
    intro s hs
    obtain ⟨f, b2, hgo⟩ := hstep s hs
    obtain ⟨s', hN, hs'⟩ := ih (a :: post, b2) (Or.inr rfl)
    refine ⟨s', ?_, hs'⟩
    simp only [bnextN, hgo]
    exact hN

/-- C4: the first call to `iter()`/`iter_batched(n)` walks every archetype
of the captured list and calls `Q::Fetch::borrow` on exactly the archetypes
whose access is `Read` or `Write` (not on skipped archetypes, not on
`Iterate`-only ones), then sets `borrowed = true`; and destruction with
`borrowed = true` calls `Q::Fetch::release` on exactly the archetypes whose
access is `Read` or `Write`. -/
theorem spec_c4_borrow_release_exact (q : Q) (archs : List Archetype) :
    QueryBorrow.borrowStep q ⟨archs, false⟩ =
      .ok (⟨archs, true⟩, archs.filter fun x =>
        decide (Q.access q x = some Access.read ∨ Q.access q x = some Access.write))
    ∧ QueryBorrow.dropRun q ⟨archs, true⟩ =
      archs.filter fun x =>
        decide (Q.access q x = some Access.read ∨ Q.access q x = some Access.write) := by
  have htrace : borrowTrace q archs = archs.filter fun x =>
      decide (Q.access q x = some Access.read ∨ Q.access q x = some Access.write) := by
    unfold borrowTrace
    exact List.filter_congr fun x _ => optAccessGE_read_iff (Q.access q x)
  exact ⟨by simp [QueryBorrow.borrowStep, htrace],
    by simp [QueryBorrow.dropRun, htrace]⟩

/-- C3: after `iter()` or `iter_batched(n)` has run once on a fresh borrow
(setting `borrowed = true`), a second call of either loudly fails with the
`QueryBorrow::borrow` panic instead of silently re-borrowing. -/
theorem spec_c3_second_iter_panics (q : Q) (archs : List Archetype) (n : Nat) :
    QueryBorrow.iterStart q ⟨archs, false⟩ =
      .ok (⟨archs, true⟩, (archs, none), borrowTrace q archs)
    ∧ QueryBorrow.iterBatchedStart q n ⟨archs, false⟩ =
      .ok (⟨archs, true⟩, (archs, 0), borrowTrace q archs)
    ∧ QueryBorrow.iterStart q ⟨archs, true⟩ = .error panicMsg
    ∧ QueryBorrow.iterBatchedStart q n ⟨archs, true⟩ = .error panicMsg :=
  ⟨rfl, rfl, rfl, rfl⟩

/-- C1 counterexample: with one archetype holding component 0 and one row,
`iter()` on `&T0` borrows that archetype; transforming the borrowed
`QueryBorrow` with `with::<T1>()` (where the archetype lacks component 1)
transfers `borrowed = true`, yet the transformed borrow's destructor
releases nothing: the originally borrowed archetype is not released,
refuting the claim that the destructor still releases every archetype that
was originally borrowed. -/
theorem spec_c1_cex :
    QueryBorrow.borrowStep (Q.read 0) ⟨[⟨[0], 1, [5]⟩], false⟩ =
      .ok (⟨[⟨[0], 1, [5]⟩], true⟩, [⟨[0], 1, [5]⟩])
    ∧ QueryBorrow.transform ⟨[⟨[0], 1, [5]⟩], true⟩ =
      (⟨[⟨[0], 1, [5]⟩], true⟩, ⟨[⟨[0], 1, [5]⟩], false⟩)
    ∧ QueryBorrow.dropRun (Q.withQ 1 (Q.read 0)) ⟨[⟨[0], 1, [5]⟩], true⟩ = [] :=
  ⟨rfl, rfl, rfl⟩

/-- C1 (amended): `with::<T>()`/`without::<T>()` transfer the archetype
list and the borrowed flag to the new borrow without re-borrowing, and
suppress the consumed borrow's destructor (it releases nothing).  The
transformed borrow's destructor releases exactly the archetypes the
transformed query accesses at `Read` or `Write` — the originally borrowed
archetypes that also pass the `With`/`Without` filter; archetypes excluded
by the new filter are not released. -/
theorem spec_c1_transform_release (q : Q) (t : Nat) (b : QueryBorrow) :
    (QueryBorrow.transform b).1.borrowed = b.borrowed
    ∧ (QueryBorrow.transform b).1.archetypes = b.archetypes
    ∧ QueryBorrow.dropRun q (QueryBorrow.transform b).2 = []
    ∧ (b.borrowed = true →
        QueryBorrow.dropRun (Q.withQ t q) (QueryBorrow.transform b).1 =
          (borrowTrace q b.archetypes).filter (fun x => x.has t)
        ∧ QueryBorrow.dropRun (Q.withoutQ t q) (QueryBorrow.transform b).1 =
          (borrowTrace q b.archetypes).filter (fun x => !x.has t)) := by
  refine ⟨rfl, rfl, by simp [QueryBorrow.dropRun, QueryBorrow.transform], ?_⟩
  intro hb
  constructor
  · simp only [QueryBorrow.dropRun, QueryBorrow.transform, hb, if_true, borrowTrace]
    rw [List.filter_filter]
    apply List.filter_congr
    intro x _
    rw [optAccessGE_withQ, Bool.and_comm]
  · simp only [QueryBorrow.dropRun, QueryBorrow.transform, hb, if_true, borrowTrace]
    rw [List.filter_filter]
    apply List.filter_congr
    intro x _
    rw [optAccessGE_withoutQ, Bool.and_comm]

/-- C1 witness: the amended release behaviour at a concrete borrowed
borrow over two archetypes, one with and one without the `With`
component. -/
theorem spec_c1_transform_release_witness :
    QueryBorrow.dropRun (Q.withQ 1 (Q.read 0))
        (QueryBorrow.transform ⟨[⟨[0], 1, [5]⟩, ⟨[0, 1], 1, [6]⟩], true⟩).1 =
      (borrowTrace (Q.read 0) [⟨[0], 1, [5]⟩, ⟨[0, 1], 1, [6]⟩]).filter
        (fun x => x.has 1) :=
  ((spec_c1_transform_release (Q.read 0) 1
    ⟨[⟨[0], 1, [5]⟩, ⟨[0, 1], 1, [6]⟩], true⟩).2.2.2 rfl).1

/-- C5: `QueryIter::next` implements the chunked iteration algorithm:
given enough fuel (one unit per yielded item), draining the iterator from
the initial state produces, for each archetype in list order whose fetch
initializes at offset 0, a chunk of `archetype.len` rows yielded in
increasing row-index order; the drain stabilizes (further fuel changes
nothing), i.e. `next` returns `None` exactly once the archetype list is
exhausted. -/
theorem spec_c5_chunked_iteration (q : Q) (archs : List Archetype) (fuel : Nat)
    (h : (iterItems q archs).length ≤ fuel) :
    qdrain q fuel (archs, none) = iterItems q archs :=
  qdrain_main q archs fuel h

/-- C5 witness: a two-row matched archetype followed by an unmatched one,
drained with surplus fuel. -/
theorem spec_c5_chunked_iteration_witness :
    (iterItems (Q.read 0) [⟨[0], 2, [4, 5]⟩, ⟨[1], 1, [6]⟩]).length ≤ 7
    ∧ qdrain (Q.read 0) 7 ([⟨[0], 2, [4, 5]⟩, ⟨[1], 1, [6]⟩], none) =
        iterItems (Q.read 0) [⟨[0], 2, [4, 5]⟩, ⟨[1], 1, [6]⟩] :=
  ⟨by decide,
    spec_c5_chunked_iteration (Q.read 0) [⟨[0], 2, [4, 5]⟩, ⟨[1], 1, [6]⟩] 7 (by decide)⟩

/-- C2 counterexample: with batch size 0 and a non-empty matched archetype,
`iter_batched(0)` yields an endless stream of zero-length batches (after 3
batches the iterator is still live and their concatenation is empty),
while `iter()` yields the archetype's row; so for batch size 0 the
concatenation of all batches is not the `iter()` sequence and the batches
do not cover the archetype. -/
theorem spec_c2_cex :
    (bnextN Q.ent 0 3 ([⟨[], 1, [7]⟩], 0)).isSome = true
    ∧ ((bdrain Q.ent 0 3 ([⟨[], 1, [7]⟩], 0)).map fun c => chunkItems c.1 c.2) =
        [[], [], []]
    ∧ qdrain Q.ent 2 ([⟨[], 1, [7]⟩], none) = [Item.ent 7] :=
  ⟨rfl, rfl, rfl⟩

/-- C2 (amended): for every batch size `n ≥ 1` and archetype lengths small
enough that the `u32` offset `batch_size * batch` does not overflow
(`len + n ≤ 2^32`), the batches of `iter_batched(n)` are, per matched
archetype in order, exactly the spans of `min(n, len - n*k)` rows at
offsets `n*k` — disjoint, covering every row — and their concatenation is
exactly the item sequence of `iter()`. -/
theorem spec_c2_batch_partition (q : Q) (archs : List Archetype) (n fuel1 fuel2 : Nat)
    (hn : 1 ≤ n) (hov : ∀ a ∈ archs, a.len + n ≤ U32)
    (hf1 : batchCount q archs n ≤ fuel1)
    (hf2 : (iterItems q archs).length ≤ fuel2) :
    ((bdrain q n fuel1 (archs, 0)).map fun c => chunkItems c.1 c.2) = batchLists q archs n
    ∧ (batchLists q archs n).flatten = qdrain q fuel2 (archs, none) :=
  ⟨bdrain_main q n hn archs hov fuel1 hf1,
    (batchLists_flatten q n hn archs).trans (qdrain_main q archs fuel2 hf2).symm⟩

/-- C2 witness: a three-row archetype batched by 2 (batches of 2 and 1
rows), concatenating to the `iter()` sequence. -/
theorem spec_c2_batch_partition_witness :
    ((bdrain Q.ent 2 5 ([⟨[], 3, [4, 5, 6]⟩], 0)).map fun c => chunkItems c.1 c.2) =
        batchLists Q.ent [⟨[], 3, [4, 5, 6]⟩] 2
    ∧ (batchLists Q.ent [⟨[], 3, [4, 5, 6]⟩] 2).flatten =
        qdrain Q.ent 5 ([⟨[], 3, [4, 5, 6]⟩], none) :=
  spec_c2_batch_partition Q.ent [⟨[], 3, [4, 5, 6]⟩] 2 5 5 (by decide) (by decide)
    (by decide) (by decide)

/-- C6: a tuple query's access to an archetype is skip exactly when some
child skips; otherwise it is `Some x` with `x` an upper bound of all
children's accesses under `Write > Read > Iterate` that is itself
`Iterate` or attained by a child (i.e. the maximum, with `Iterate` for the
empty tuple); and the per-row item is the tuple of the children's items. -/
theorem spec_c6_tuple (qs : List Q) (a : Archetype) (r : Nat) :
    (Q.access (Q.tup qs) a = none ↔ ∃ q ∈ qs, Q.access q a = none)
    ∧ (∀ x, Q.access (Q.tup qs) a = some x →
        (∀ q ∈ qs, ∃ y, Q.access q a = some y ∧ y.rank ≤ x.rank)
        ∧ (x = Access.iterate ∨ ∃ q ∈ qs, Q.access q a = some x))
    ∧ Q.getItem (Q.tup qs) a r = (qs.mapM fun q => Q.getItem q a r).map Item.tup := by
  refine ⟨?_, ?_, ?_⟩
  · simpa only [Q.access] using accessFold_none_iff a qs .iterate
  · intro x hx
    simp only [Q.access] at hx
    obtain ⟨_, h2, h3⟩ := accessFold_some a qs .iterate x hx
    exact ⟨h2, h3⟩
  · rw [mapM_getItem a r qs]
    simp only [Q.getItem, Q.getF]
    cases hss : Q.getFList qs a r with
    | none => simp
    | some ss => simp [FetchS.nextF]

/-- C6 witness: the tuple `(&T0, &mut T1)` on an archetype holding both
components. -/
theorem spec_c6_tuple_witness :
    (∀ q ∈ [Q.read 0, Q.write 1], ∃ y,
        Q.access q ⟨[0, 1], 1, [3]⟩ = some y ∧ y.rank ≤ Access.write.rank)
    ∧ (Access.write = Access.iterate ∨ ∃ q ∈ [Q.read 0, Q.write 1],
        Q.access q ⟨[0, 1], 1, [3]⟩ = some Access.write) :=
  (spec_c6_tuple [Q.read 0, Q.write 1] ⟨[0, 1], 1, [3]⟩ 0).2.1 Access.write rfl

/-- C7: `Option<Q>` never skips an archetype: its access is the access of
`Q` when `Q` matches and `Iterate` otherwise (the maximum of `Q`'s access
and `Iterate`), and each yielded row wraps `Q`'s item — `Some(item)` when
`Q` matched the archetype, `None` otherwise. -/
theorem spec_c7_optional (q : Q) (a : Archetype) (r : Nat) :
    (Q.access (Q.opt q) a).isSome = true
    ∧ (∀ x, Q.access q a = some x → Q.access (Q.opt q) a = some x)
    ∧ (Q.access q a = none → Q.access (Q.opt q) a = some Access.iterate)
    ∧ Q.getItem (Q.opt q) a r = some (Item.opt (Q.getItem q a r))
    ∧ ((Q.access q a).isSome = true → (Q.getItem q a r).isSome = true)
    ∧ (Q.access q a = none → Q.getItem q a r = none) := by
  refine ⟨by simp [Q.access], ?_, ?_, ?_, ?_, ?_⟩
  · intro x hx; simp [Q.access, hx]
  · intro hx; simp [Q.access, hx]
  · simp only [Q.getItem, Q.getF]
    cases hg : Q.getF q a r with
    | none => simp [FetchS.nextF]
    | some s => simp [FetchS.nextF]
  · intro hx
    simp only [Q.getItem]
    rw [Option.isSome_map', getF_isSome]
    exact hx
  · intro hx
    have hg : Q.getF q a r = none := by
      apply Option.not_isSome_iff_eq_none.mp
      rw [getF_isSome, hx]
      simp
    simp [Q.getItem, hg]

/-- C7 witness: `Option<&T0>` on an archetype lacking component 0 still
matches with `Iterate` access and yields `None` items. -/
theorem spec_c7_optional_witness :
    Q.access (Q.opt (Q.read 0)) ⟨[1], 1, [3]⟩ = some Access.iterate
    ∧ Q.getItem (Q.read 0) ⟨[1], 1, [3]⟩ 0 = none :=
  ⟨(spec_c7_optional (Q.read 0) ⟨[1], 1, [3]⟩ 0).2.2.1 rfl,
    (spec_c7_optional (Q.read 0) ⟨[1], 1, [3]⟩ 0).2.2.2.2.2 rfl⟩

/-- C8: at every point of iteration — after any number `k` of yielded
items — `QueryIter::len` (and hence `size_hint`) returns the sum of
`archetype.len` over all archetypes of the captured list whose access is
defined (not skipped), independently of the cursor state. -/
theorem spec_c8_len_sum (q : Q) (archs : List Archetype) (k : Nat) (s' : QState)
    (h : qnextN q k (archs, none) = some s') :
    QueryIter.lenFn q ⟨archs, true⟩ s' =
      (archs.map fun a => if (Q.access q a).isSome then a.len else 0).sum
    ∧ QueryIter.sizeHintFn q ⟨archs, true⟩ s' =
      ((archs.map fun a => if (Q.access q a).isSome then a.len else 0).sum,
        some ((archs.map fun a => if (Q.access q a).isSome then a.len else 0).sum)) := by
  have hs := lenFn_sum q archs
  exact ⟨hs, by simp only [QueryIter.sizeHintFn, QueryIter.lenFn] at hs ⊢; rw [hs]⟩

/-- C8 witness: `len` after one of the two items has been yielded. -/
theorem spec_c8_len_sum_witness :
    QueryIter.lenFn (Q.read 0) ⟨[⟨[0], 2, [4, 5]⟩], true⟩
        ([], some (.read ⟨[0], 2, [4, 5]⟩ 0 1, 1)) =
      ([⟨[0], 2, [4, 5]⟩].map fun a =>
        if (Q.access (Q.read 0) a).isSome then a.len else 0).sum :=
  (spec_c8_len_sum (Q.read 0) [⟨[0], 2, [4, 5]⟩] 1
    ([], some (.read ⟨[0], 2, [4, 5]⟩ 0 1, 1)) rfl).1

/-- C9: with batch size 0 and a non-empty matched archetype in the
captured list (preceded only by empty or unmatched archetypes),
`BatchedIter::next` never returns `None` and never advances past that
archetype: after any number `k` of calls the iterator is still positioned
at or before it, and the next call yields another zero-length batch — so
draining the batched iterator does not terminate. -/
theorem spec_c9_batch_size_zero (q : Q) (pre post : List Archetype) (a : Archetype)
    (hpre : ∀ x ∈ pre, x.len = 0 ∨ Q.access q x = none)
    (ha : 0 < a.len) (hm : (Q.access q a).isSome = true) :
    ∀ k, ∃ rest b', bnextN q 0 k (pre ++ a :: post, 0) = some (rest, b')
      ∧ (rest = pre ++ a :: post ∨ rest = a :: post)
      ∧ ∃ f b2, bnextGo q 0 rest b' = some ((f, 0), (a :: post, b2)) := by
  intro k
  obtain ⟨s', hN, hs'⟩ := bnextN_zero_stuck q pre post a hpre ha hm k
    (pre ++ a :: post, 0) (Or.inl rfl)
  refine ⟨s'.1, s'.2, by simpa using hN, hs', ?_⟩
  rcases hs' with h | h <;> rw [h]
  · exact bnextGo_zero_stuck q a post ha hm pre hpre s'.2
  · exact bnextGo_zero_stuck q a post ha hm [] (by simp) s'.2

/-- C9 witness: an empty archetype followed by a one-row matched
archetype, two `next` calls in. -/
theorem spec_c9_batch_size_zero_witness :
    ∃ rest b', bnextN Q.ent 0 2 ([⟨[9], 0, []⟩] ++ ⟨[], 1, [7]⟩ :: [], 0) =
        some (rest, b')
      ∧ (rest = [⟨[9], 0, []⟩] ++ ⟨[], 1, [7]⟩ :: [] ∨ rest = ⟨[], 1, [7]⟩ :: [])
      ∧ ∃ f b2, bnextGo Q.ent 0 rest b' = some ((f, 0), (⟨[], 1, [7]⟩ :: [], b2)) :=
  spec_c9_batch_size_zero Q.ent [⟨[9], 0, []⟩] [] ⟨[], 1, [7]⟩
    (by intro x hx; simp at hx; subst hx; exact Or.inl rfl) (by decide) (by decide) 2

/-- C10: for every query built from the primitives, `Fetch::get` returns
`Some` exactly when `Fetch::access` returns `Some`, and in particular the
success of `get` is independent of the offset — the invariant asserted by
the `debug_assert` in `BatchedIter::next`. -/
theorem spec_c10_get_iff_access (q : Q) (a : Archetype) (off off2 : Nat) :
    (Q.getF q a off).isSome = (Q.access q a).isSome
    ∧ (Q.getF q a off).isSome = (Q.getF q a off2).isSome :=
  ⟨getF_isSome q a off, (getF_isSome q a off).trans (getF_isSome q a off2).symm⟩
